import Mathlib

/-!
Verification development for the `bark` receiver (repository `ckiee/bark`).

The receiver's synchronization and playback engine lives in
`src/src/receive.rs` (`Receiver`, `Stream`, `QueueEntry`, `RateAdjust`,
`Aggregate`).  The crate's `protocol`, `time`, `status` and `resample`
modules are not part of the sources; definitions for them are modelled
from the specification and are marked as such in their doc comments.
Audio samples (`f32` in the source) are only moved around, never
computed with, so they are modelled as rationals.

Clock-reading functions from `src/bark/src/time.rs` and
`src/bark/src/stream.rs` are embedded as pure functions of the clock
reading `(tv_sec, tv_nsec)`.
-/

namespace Bark

/-- Modelled from the spec: the `protocol` module is not under `src/`.
The spec fixes `CHANNELS = 2`. -/
def CHANNELS : ℕ := 2

/-- Modelled from the spec: the `protocol` module is not under `src/`.
`FRAMES_PER_PACKET` is "a fixed constant, e.g. 160 frames". -/
def FRAMES_PER_PACKET : ℕ := 160

/-- Modelled from the spec: samples per packet, `FRAMES_PER_PACKET × CHANNELS`. -/
def SAMPLES_PER_PACKET : ℕ := FRAMES_PER_PACKET * CHANNELS

/-- Modelled from the spec: `SAMPLE_RATE = 48_000 Hz`. -/
def SAMPLE_RATE : ℕ := 48000

/-- Modelled from the spec: the `time` module is not under `src/`.
`SampleDuration` is a count of stereo frames; the buffer offset of a
duration is its count of interleaved `f32` samples (`frames × CHANNELS`),
matching how `as_buffer_offset` indexes `f32` slices in `receive.rs` and
`main.rs`. -/
def SampleDuration.as_buffer_offset (frames : ℕ) : ℕ := frames * CHANNELS

/-- Modelled from the spec: inverse of `as_buffer_offset` on an `f32`
sample count (lossy: floor). -/
def SampleDuration.from_buffer_offset (samples : ℕ) : ℕ := samples / CHANNELS

/-- Modelled from the spec: `ONE_PACKET = FRAMES_PER_PACKET`. -/
def SampleDuration.ONE_PACKET : ℕ := FRAMES_PER_PACKET

/-- Modelled from the spec: conversion of a microsecond duration to a
whole number of frames, `µs × SAMPLE_RATE / 1e6` (lossy: floor). -/
def SampleDuration.from_std_duration_lossy (micros : ℕ) : ℕ :=
  micros * SAMPLE_RATE / 1000000

/-- Modelled from the spec: a `Timestamp` is a SampleDuration-precision
instant, counted in frames.  Instants are modelled as unbounded signed
integers so that differences are exact. -/
def Timestamp.from_micros_lossy (micros : ℕ) : ℤ :=
  (micros * SAMPLE_RATE / 1000000 : ℕ)

/-- Modelled from the spec: the `ClockDelta` of a completed `TimePacket`,
`(stream_1 + stream_3)/2 − receiver_2` in microseconds (signed:
remote − local). -/
def ClockDelta.from_time_packet_micros (stream_1 receiver_2 stream_3 : ℕ) : ℤ :=
  ((stream_1 + stream_3) / 2 : ℕ) - (receiver_2 : ℤ)

/-- Modelled from the spec: conversion of a signed microsecond clock
delta to a signed frame count (lossy; `i64` division truncates toward
zero). -/
def TimestampDelta.from_clock_delta_lossy (delta : ℤ) : ℤ :=
  Int.tdiv (delta * (SAMPLE_RATE : ℤ)) 1000000

/-- From `src/src/receive.rs` (`struct Aggregate<T>`): a ring of 64
samples together with a fill count and a write index.  The `[T; 64]`
array is a total function on `Fin 64`; the `usize` write index is kept
in `Fin 64` (the source establishes `index < 64` by `index %= 64` after
every write). -/
structure Aggregate (T : Type) where
  samples : Fin 64 → T
  count : ℕ
  index : Fin 64

/-- From `src/src/receive.rs` (`Aggregate::new`): all samples start at
the default value (`Default::default()` in the source), count and index
at zero. -/
def Aggregate.new {T : Type} [Inhabited T] : Aggregate T :=
  { samples := fun _ => default, count := 0, index := 0 }

/-- From `src/src/receive.rs` (`Aggregate::observe`): write the value at
the current index, saturate the count at 64, and advance the index
mod 64. -/
def Aggregate.observe {T : Type} (a : Aggregate T) (value : T) : Aggregate T :=
  { samples := Function.update a.samples a.index value
    count := if a.count < 64 then a.count + 1 else a.count
    index := a.index + 1 }

/-- From `src/src/receive.rs` (`Aggregate::median`): sort the first
`count` samples of (a copy of) the ring in ascending order and return
the element at index `count / 2`, if any.  (Any correct ascending sort
models the source's `samples.sort()`: over a linear order all sorted
permutations of a list are equal.) -/
def Aggregate.median {T : Type} [LinearOrder T] (a : Aggregate T) : Option T :=
  (((List.ofFn a.samples).take a.count).insertionSort (· ≤ ·))[a.count / 2]?

/-- From `src/src/status.rs` usage in `receive.rs`: the stream-state tag
shown by the status line. -/
inductive StreamStatus where
  | Sync : StreamStatus
  | Slew : StreamStatus
  | Miss : StreamStatus
deriving DecidableEq, Repr

/-- Modelled from the spec: the `status` module is not under `src/`.
`Status` holds the last recorded value of each rolling metric surfaced
by the terminal status line. -/
structure Status where
  stream : Option StreamStatus
  network_latency : Option ℕ
  clock_delta : Option ℤ
  dts_prediction : Option ℤ
  audio_latency : Option (ℤ × ℤ)
  buffer_length : ℕ
deriving DecidableEq, Repr

def Status.new : Status :=
  { stream := none, network_latency := none, clock_delta := none
    dts_prediction := none, audio_latency := none, buffer_length := 0 }

def Status.record_network_latency (s : Status) (latency : ℕ) : Status :=
  { s with network_latency := some latency }

def Status.record_clock_delta (s : Status) (delta : ℤ) : Status :=
  { s with clock_delta := some delta }

def Status.record_dts_prediction_difference (s : Status) (diff : ℤ) : Status :=
  { s with dts_prediction := some diff }

def Status.record_audio_latency (s : Status) (real_ts play_ts : ℤ) : Status :=
  { s with audio_latency := some (real_ts, play_ts) }

def Status.record_buffer_length (s : Status) (frames : ℕ) : Status :=
  { s with buffer_length := frames }

def Status.set_stream (s : Status) (st : StreamStatus) : Status :=
  { s with stream := some st }

def Status.clear_stream (s : Status) : Status :=
  { s with stream := none }

/-- Modelled from the spec: rendering the status line writes to the
terminal and leaves the metrics unchanged. -/
def Status.render (s : Status) : Status := s

/-- Modelled from the spec: the `resample` module is not under `src/`.
The resampler is a variable-rate converter; only its input rate is
state.  `process_interleaved` is modelled as a rate-1 copy: it consumes
and produces `min |input| outLen / 2` whole frames. -/
structure Resampler where
  rate : ℕ
deriving DecidableEq, Repr

def Resampler.new : Resampler := { rate := SAMPLE_RATE }

def Resampler.set_input_rate (r : Resampler) (rate : ℕ) : Resampler :=
  { r with rate := rate }

/-- Modelled from the spec: result of one resampler call, in frames,
plus the samples written. -/
structure ProcessResult where
  input_read : ℕ
  output_written : ℕ
  samples : List ℚ

/-- Modelled from the spec: rate-1 resampling copies whole frames from
the input to the output, bounded by both lengths. -/
def Resampler.process_interleaved (input : List ℚ) (outLen : ℕ) : ProcessResult :=
  let frames := min input.length outLen / CHANNELS
  { input_read := frames, output_written := frames
    samples := input.take (frames * CHANNELS) }

/-- From `src/src/receive.rs` (`struct RateAdjust`): last timing pair and
the slew flag.  Timestamps are in frames. -/
structure RateAdjust where
  real_ts : Option ℤ
  play_ts : Option ℤ
  slew : Bool
deriving DecidableEq, Repr

def RateAdjust.new : RateAdjust :=
  { real_ts := none, play_ts := none, slew := false }

def RateAdjust.set_timing (ra : RateAdjust) (real_ts play_ts : ℤ) : RateAdjust :=
  { ra with real_ts := some real_ts, play_ts := some play_ts }

/-- From `src/src/receive.rs` (`RateAdjust::adjusted_rate`): hysteresis
controller.  Returns the updated controller (its `slew` flag is mutated
in place in the source) and the adjusted rate, if any.  `i64` division
truncates toward zero (`Int.tdiv`); the final `u32::try_from` cannot
fail because the clamped rate is positive. -/
def RateAdjust.adjusted_rate (ra : RateAdjust) : RateAdjust × Option ℕ :=
  match ra.real_ts, ra.play_ts with
  | some real_ts, some play_ts =>
    let start_slew_threshold := SampleDuration.from_std_duration_lossy 2000
    let stop_slew_threshold := SampleDuration.from_std_duration_lossy 100
    let slew_target_duration_micros : ℤ := 500000
    let frame_offset : ℤ := real_ts - play_ts
    if frame_offset.natAbs < stop_slew_threshold then
      ({ ra with slew := false }, none)
    else if frame_offset.natAbs < start_slew_threshold ∧ ¬ ra.slew then
      (ra, none)
    else
      let base_sample_rate : ℤ := (SAMPLE_RATE : ℤ)
      let rate_offset := Int.tdiv (frame_offset * 1000000) slew_target_duration_micros
      let rate := base_sample_rate + rate_offset
      let rate := max (Int.tdiv (base_sample_rate * 98) 100) rate
      let rate := min (base_sample_rate * 2) rate
      ({ ra with slew := true }, some rate.toNat)
  | _, _ => (ra, none)

/-- From `src/src/receive.rs` usage of `protocol::AudioPacket`: header
fields plus the fixed-size interleaved payload (`[f32;
SAMPLES_PER_PACKET]`, modelled as a total function). -/
structure AudioPacket where
  flags : ℕ
  sid : ℕ
  seq : ℕ
  pts : ℕ
  dts : ℕ
  buffer : Fin SAMPLES_PER_PACKET → ℚ

/-- From `src/src/receive.rs` usage of `protocol::TimePacket`: the
three-way clock-sync packet. -/
structure TimePacket where
  sid : ℕ
  rid : ℕ
  stream_1 : ℕ
  receiver_2 : ℕ
  stream_3 : ℕ
deriving DecidableEq, Repr

/-- From `src/src/receive.rs` (`struct QueueEntry`). -/
structure QueueEntry where
  seq : ℕ
  pts : Option ℤ
  consumed : ℕ
  packet : Option AudioPacket

/-- From `src/src/receive.rs` (`QueueEntry::as_full_buffer`): the
packet's payload, or silence for a missing packet. -/
def QueueEntry.as_full_buffer (e : QueueEntry) : List ℚ :=
  match e.packet with
  | some p => List.ofFn p.buffer
  | none => List.replicate SAMPLES_PER_PACKET 0

/-- From `src/src/receive.rs` (`struct Stream`). -/
structure Stream where
  sid : ℕ
  start_seq : ℕ
  sync : Bool
  resampler : Resampler
  rate_adjust : RateAdjust
  latency : Aggregate ℕ
  clock_delta : Aggregate ℤ

/-- From `src/src/receive.rs` (`Stream::start_from_packet`). -/
def Stream.start_from_packet (packet : AudioPacket) : Stream :=
  { sid := packet.sid, start_seq := packet.seq, sync := false
    resampler := Resampler.new, rate_adjust := RateAdjust.new
    latency := Aggregate.new, clock_delta := Aggregate.new }

/-- From `src/src/receive.rs` (`Stream::adjust_pts`): adjust a source
presentation timestamp by the median clock delta, when one exists. -/
def Stream.adjust_pts (s : Stream) (pts : ℤ) : Option ℤ :=
  s.clock_delta.median.map
    (fun delta => pts + TimestampDelta.from_clock_delta_lossy delta)

/-- From `src/src/receive.rs` (`Stream::network_latency`). -/
def Stream.network_latency (s : Stream) : Option ℕ :=
  s.latency.median

/-- From `src/src/main.rs` / `src/src/receive.rs` (`ReceiverOpt`). -/
structure ReceiverOpt where
  max_seq_gap : ℕ
deriving DecidableEq, Repr

/-- From `src/src/receive.rs` (`struct Receiver`). -/
structure Receiver where
  opt : ReceiverOpt
  status : Status
  stream : Option Stream
  queue : List QueueEntry

/-- From `src/src/receive.rs` (`Receiver::new`). -/
def Receiver.new (opt : ReceiverOpt) : Receiver :=
  { opt := opt, stream := none, queue := [], status := Status.new }

/-- From `src/src/receive.rs` (`Receiver::receive_time`): handle a
clock-sync packet.  Returns the receiver unchanged when there is no
stream, the packet is for a different session, or the checked
subtraction `stream_3 − stream_1` fails. -/
def Receiver.receive_time (r : Receiver) (packet : TimePacket) : Receiver :=
  match r.stream with
  | none => r
  | some stream =>
    if stream.sid ≠ packet.sid then r
    else if packet.stream_3 < packet.stream_1 then r
    else
      let rtt_usec := packet.stream_3 - packet.stream_1
      let network_latency := rtt_usec / 2
      let latency' := stream.latency.observe network_latency
      let status1 :=
        match latency'.median with
        | some latency => r.status.record_network_latency latency
        | none => r.status
      let clock_delta := ClockDelta.from_time_packet_micros
        packet.stream_1 packet.receiver_2 packet.stream_3
      let clock_delta' := stream.clock_delta.observe clock_delta
      let status2 :=
        match clock_delta'.median with
        | some delta => status1.record_clock_delta delta
        | none => status1
      { r with
        stream := some { stream with latency := latency', clock_delta := clock_delta' }
        status := status2 }

/-- From `src/src/receive.rs` (`Receiver::prepare_stream`): decide
whether an audio packet belongs to the current session, handling session
takeover (greater sid), stale packets, duplicates at the queue front,
and too-far-ahead packets (which reset the stream and clear the
queue). -/
def Receiver.prepare_stream (r : Receiver) (packet : AudioPacket) : Receiver × Bool :=
  match r.stream with
  | some stream =>
    if packet.sid < stream.sid then (r, false)
    else if packet.sid > stream.sid then
      ({ r with stream := some (Stream.start_from_packet packet)
                status := r.status.clear_stream
                queue := [] }, true)
    else if packet.seq < stream.start_seq then (r, false)
    else
      match r.queue with
      | front :: rest =>
        if packet.seq ≤ front.seq then (r, false)
        else
          match (front :: rest).getLast? with
          | some back =>
            if back.seq + r.opt.max_seq_gap ≤ packet.seq then
              ({ r with stream := some (Stream.start_from_packet packet)
                        status := r.status.clear_stream
                        queue := [] }, true)
            else (r, true)
          | none => (r, true)
      | [] => (r, true)
  | none =>
    ({ r with stream := some (Stream.start_from_packet packet)
              status := r.status.clear_stream }, true)

/-- Helper for `receive_audio`: the empty queue slot pushed for a
sequence number. -/
def emptyEntry (seq : ℕ) : QueueEntry :=
  { seq := seq, pts := none, consumed := 0, packet := none }

/-- From `src/src/receive.rs` (`receive_audio`, lines 187-195): record
the DTS-prediction metric when both a latency and a clock-delta median
exist.  The metric is computed in `ℤ` (the source uses `u64`/`i64`
arithmetic whose wrap/overflow paths are unreachable for clock-scale
values). -/
def recordDtsPrediction (r : Receiver) (stream : Stream) (now : ℕ)
    (packet : AudioPacket) : Receiver :=
  match stream.network_latency, stream.clock_delta.median with
  | some latency, some delta =>
    let predict_dts : ℤ := ((now : ℤ) - (latency : ℤ)) + (- delta)
    let predict_diff : ℤ := predict_dts - (packet.dts : ℤ)
    { r with status := r.status.record_dts_prediction_difference predict_diff }
  | some _, none => r
  | none, _ => r

/-- From `src/src/receive.rs` (`receive_audio`, lines 201-234): expand
the queue to make space for the packet (pushing empty slots up to its
seq, or a single slot if the queue is empty), then fill the slot at
index `packet.seq − front.seq` with the packet and its adjusted pts.
The source asserts `slot.seq == packet.seq` before filling the slot;
the model leaves the slot unchanged in that (unreachable) case. -/
def admitToQueue (stream : Stream) (queue : List QueueEntry)
    (packet : AudioPacket) : List QueueEntry :=
  let queue1 :=
    match queue.getLast? with
    | some back =>
      if packet.seq > back.seq then
        queue ++ (List.range (packet.seq - back.seq)).map
          (fun j => emptyEntry (back.seq + 1 + j))
      else queue
    | none => [emptyEntry packet.seq]
  let front_seq := match queue1 with | f :: _ => f.seq | [] => 0
  let idx_for_packet := packet.seq - front_seq
  List.modify
    (fun slot =>
      if slot.seq = packet.seq then
        { slot with packet := some packet
                    pts := stream.adjust_pts (Timestamp.from_micros_lossy packet.pts) }
      else slot)
    idx_for_packet queue1

/-- From `src/src/receive.rs` (`Receiver::receive_audio`): admit an
audio packet.  The clock reading `TimestampMicros::now()` taken at the
top of the function is passed in as `now`. -/
def Receiver.receive_audio (r : Receiver) (now : ℕ) (packet : AudioPacket) : Receiver :=
  if packet.flags ≠ 0 then r
  else
    match Receiver.prepare_stream r packet with
    | (r1, false) => r1
    | (r1, true) =>
      match r1.stream with
      | none => r1
      | some stream =>
        let r2 := recordDtsPrediction r1 stream now packet
        { r2 with queue := admitToQueue stream r2.queue packet }

/-- Result of one call to `fill_stream_buffer`.  `assertFail` is the
`assert!(data.len() % 2 == 0)` panic at the top of the function;
`stuck` covers the copy loop's behaviour on malformed queue entries
(`consumed > ONE_PACKET` or an odd residual buffer), where the source
either panics on slice arithmetic or loops forever — unreachable from
well-formed states. -/
inductive FillResult where
  | assertFail : FillResult
  | stuck : FillResult
  | ok : Receiver → List ℚ → FillResult

/-- Result of the sync-up phase of `fill_stream_buffer`
(`receive.rs` lines 251-311): either an early return that fills the
whole buffer with silence (with the queue as mutated so far), or fall
through to the copy phase with the mutated queue, a count of silence
samples already emitted, and whether `stream.sync` was just set. -/
inductive SyncResult where
  | earlyReturn : List QueueEntry → SyncResult
  | proceed : List QueueEntry → ℕ → Bool → SyncResult

/-- From `src/src/receive.rs` (`fill_stream_buffer`, sync phase): walk
the queue front until the playback instant lines up with a packet's
presentation timestamp.  `n` is the number of samples still to fill. -/
def syncLoop (pts : ℤ) (n : ℕ) : List QueueEntry → SyncResult
  | [] => SyncResult.earlyReturn []
  | front :: rest =>
    match front.pts with
    | none => SyncResult.earlyReturn rest
    | some front_pts =>
      if pts > front_pts then
        let late := (pts - front_pts).toNat
        if late ≥ SampleDuration.ONE_PACKET then
          syncLoop pts n rest
        else
          SyncResult.proceed ({ front with consumed := late } :: rest) 0 true
      else
        let early := (front_pts - pts).toNat
        if early ≥ SampleDuration.from_buffer_offset n then
          SyncResult.earlyReturn (front :: rest)
        else
          SyncResult.proceed (front :: rest) (SampleDuration.as_buffer_offset early) true

/-- Result of the copy phase: the remaining queue, the last
`stream_ts` observed, the samples written, and whether the queue ran
dry (`Miss`), which makes the source return early. -/
inductive CopyResult where
  | stuck : CopyResult
  | ok : List QueueEntry → Option ℤ → List ℚ → Bool → CopyResult

/-- From `src/src/receive.rs` (`fill_stream_buffer`, copy phase): drain
the queue through the resampler until `n` output samples are written.
Recursion is on the queue; the branches mirror the source's loop: a
fully consumed front is popped and the loop continues, otherwise the
output must be exhausted.  The final catch-all is `stuck` (see
`FillResult.stuck`). -/
def copyLoop : List QueueEntry → ℕ → Option ℤ → CopyResult
  | queue, 0, stream_ts => CopyResult.ok queue stream_ts [] false
  | [], n + 1, stream_ts =>
    CopyResult.ok [] stream_ts (List.replicate (n + 1) 0) true
  | front :: rest, n + 1, _ =>
    let buffer := front.as_full_buffer
    let buffer_offset := SampleDuration.as_buffer_offset front.consumed
    if buffer.length < buffer_offset then CopyResult.stuck
    else
      let buffer_remaining := buffer.length - buffer_offset
      let copy_count := min (n + 1) buffer_remaining
      let input := (buffer.drop buffer_offset).take copy_count
      let result := Resampler.process_interleaved input copy_count
      let data' := (n + 1) - SampleDuration.as_buffer_offset result.output_written
      let consumed' := front.consumed + result.input_read
      let stream_ts' := front.pts.map (fun front_pts => front_pts + (consumed' : ℤ))
      if consumed' = SampleDuration.ONE_PACKET then
        match copyLoop rest data' stream_ts' with
        | CopyResult.stuck => CopyResult.stuck
        | CopyResult.ok queue' ts out missed =>
          CopyResult.ok queue' ts (result.samples ++ out) missed
      else if data' = 0 then
        CopyResult.ok ({ front with consumed := consumed' } :: rest) stream_ts'
          result.samples false
      else CopyResult.stuck

/-- From `src/src/receive.rs` (`fill_stream_buffer`, lines 347-365):
sum of `ONE_PACKET − consumed` over the queue, recorded as the buffer
depth. -/
def bufferedFrames (queue : List QueueEntry) : ℕ :=
  queue.foldl (fun cum e => cum + (SampleDuration.ONE_PACKET - e.consumed)) 0

/-- From `src/src/receive.rs` (`Receiver::fill_stream_buffer`): fill an
output buffer of `n` samples for playback instant `pts`.  The `&mut
[f32]` out-parameter is modelled by its length on input and the written
samples on output (the source never reads the buffer's prior
contents). -/
def Receiver.fill_stream_buffer (r : Receiver) (n : ℕ) (pts : ℤ) : FillResult :=
  if n % 2 ≠ 0 then FillResult.assertFail
  else
    match r.stream with
    | none =>
      FillResult.ok { r with status := r.status.render } (List.replicate n 0)
    | some stream =>
      let real_ts_after_fill := pts + (SampleDuration.from_buffer_offset n : ℤ)
      let sync_res :=
        if stream.sync then SyncResult.proceed r.queue 0 false
        else syncLoop pts n r.queue
      match sync_res with
      | SyncResult.earlyReturn queue' =>
        FillResult.ok { r with queue := queue', status := r.status.render }
          (List.replicate n 0)
      | SyncResult.proceed queue' zero_count setSync =>
        let stream1 := if setSync then { stream with sync := true } else stream
        let status1 := if setSync then r.status.set_stream StreamStatus.Sync else r.status
        match copyLoop queue' (n - zero_count) none with
        | CopyResult.stuck => FillResult.stuck
        | CopyResult.ok queue'' ts out missed =>
          let written := List.replicate zero_count (0 : ℚ) ++ out
          if missed then
            FillResult.ok
              { r with stream := some stream1, queue := queue''
                       status := ((status1.set_stream StreamStatus.Miss).render) }
              written
          else
            let (stream2, status2) :=
              match ts with
              | some stream_ts =>
                let ra1 := stream1.rate_adjust.set_timing real_ts_after_fill stream_ts
                let (ra2, rateOpt) := ra1.adjusted_rate
                let resampler' :=
                  match rateOpt with
                  | some rate => stream1.resampler.set_input_rate rate
                  | none => stream1.resampler
                let st :=
                  if ra2.slew then status1.set_stream StreamStatus.Slew
                  else status1.set_stream StreamStatus.Sync
                let st := st.record_audio_latency real_ts_after_fill stream_ts
                ({ stream1 with rate_adjust := ra2, resampler := resampler' }, st)
              | none => (stream1, status1)
            let status3 := status2.record_buffer_length (bufferedFrames queue'')
            FillResult.ok
              { r with stream := some stream2, queue := queue''
                       status := status3.render }
              written

/-- A call made on the receiver: either `receive_audio` (with the clock
reading taken at its top) or `fill_stream_buffer` (with the buffer
length and playback pts). -/
inductive Op where
  | audio : ℕ → AudioPacket → Op
  | fillBuf : ℕ → ℤ → Op

/-- Apply one call to the receiver.  A `fill_stream_buffer` call that
does not return normally leaves no new state. -/
def applyOp (r : Receiver) : Op → Receiver
  | Op.audio now packet => r.receive_audio now packet
  | Op.fillBuf n pts =>
    match r.fill_stream_buffer n pts with
    | FillResult.ok r' _ => r'
    | _ => r

/-- Run a sequence of calls from a starting receiver. -/
def runOps (r : Receiver) (ops : List Op) : Receiver :=
  ops.foldl applyOp r

/-- From `src/bark/src/time.rs` (`now`, non-windows): the monotonic
clock reading `(tv_sec, tv_nsec)` is converted by taking only
`tv_nsec / 1000`; the seconds part of the reading is dropped. -/
def time.now (tv_sec tv_nsec : ℕ) : ℕ := tv_nsec / 1000

/-- Modelled from the spec (claim side, for comparison): the full
microsecond count of a clock reading, `tv_sec·1e6 + tv_nsec/1000`. -/
def time.now_full_micros (tv_sec tv_nsec : ℕ) : ℕ :=
  tv_sec * 1000000 + tv_nsec / 1000

/-- From `src/bark/src/stream.rs` (`generate_session_id`, non-windows):
the wall-clock reading `(tv_sec, tv_nsec)` is converted by taking only
`tv_nsec / 1000`; the seconds part of the reading is dropped. -/
def generate_session_id (tv_sec tv_nsec : ℕ) : ℕ := tv_nsec / 1000

/-- Modelled from the spec (claim side, for comparison): a session id
derived from the full wall-clock microsecond count. -/
def session_id_full_micros (tv_sec tv_nsec : ℕ) : ℕ :=
  tv_sec * 1000000 + tv_nsec / 1000

/-! Concrete inputs used by witnesses and counterexamples. -/

/-- A flag-free audio packet with silent payload, for concrete runs. -/
def mkPacket (sid seq : ℕ) : AudioPacket :=
  { flags := 0, sid := sid, seq := seq, pts := 0, dts := 0, buffer := fun _ => 0 }

/-- A receiver with a fresh stream of session id 5 and an empty queue. -/
def rStream5 : Receiver :=
  { opt := { max_seq_gap := 12 }, status := Status.new
    stream := some (Stream.start_from_packet (mkPacket 5 1)), queue := [] }

/-- A receiver with a synced stream and one queued packet whose
adjusted pts is set: the copy phase of a fill runs on it. -/
def rSynced : Receiver :=
  { opt := { max_seq_gap := 12 }, status := Status.new
    stream := some { Stream.start_from_packet (mkPacket 5 1) with sync := true }
    queue := [{ seq := 1, pts := some 0, consumed := 0,
                packet := some (mkPacket 5 1) }] }

/-- A time packet for session 5 whose three timestamps are all zero
(i.e. unset, per the spec's "zero is a sentinel meaning unset"). -/
def tpAllZero : TimePacket :=
  { sid := 5, rid := 0, stream_1 := 0, receiver_2 := 0, stream_3 := 0 }

/-! Queue invariants (verification infrastructure). -/

/-- The queue from `syncLoop`'s point of view: the queue carried by
either kind of result. -/
def SyncResult.queue : SyncResult → List QueueEntry
  | SyncResult.earlyReturn q => q
  | SyncResult.proceed q _ _ => q

/-- The entries of `q` carry consecutive sequence numbers starting at
`s`. -/
def isRunFrom : ℕ → List QueueEntry → Prop
  | _, [] => True
  | s, e :: rest => e.seq = s ∧ isRunFrom (s + 1) rest

/-- The sequence number at the front of the queue (0 if empty). -/
def frontSeq : List QueueEntry → ℕ
  | [] => 0
  | e :: _ => e.seq

/-- The queue is contiguous: entry `i` has seq `front.seq + i`. -/
def Contig (q : List QueueEntry) : Prop := isRunFrom (frontSeq q) q

/-- Every entry has consumed at most one packet's worth of frames (an
invariant of all reachable receiver states). -/
def QueueWF (q : List QueueEntry) : Prop :=
  ∀ e ∈ q, e.consumed ≤ SampleDuration.ONE_PACKET

/-! Definitions for the aggregate-median claim. -/

/-- Feed a sequence of observations into an aggregate, oldest first. -/
def Aggregate.observeAll {T : Type} (a : Aggregate T) (vs : List T) : Aggregate T :=
  vs.foldl Aggregate.observe a

/-- Claim side (from the spec's words): the last `min (N, 64)` of the
observed values. -/
def lastWindow {T : Type} (vs : List T) : List T :=
  vs.drop (vs.length - min vs.length 64)

/-- Claim side (from the spec's words): the median of a list of values,
its ascending sort at index `length / 2`. -/
def medianOfList {T : Type} [LinearOrder T] (l : List T) : Option T :=
  (l.insertionSort (· ≤ ·))[l.length / 2]?

/-- The position in the observation sequence whose value the ring holds
at slot `i` after `L` observations (defined for `i < min L 64`): the
last `j < L` with `j % 64 = i`. -/
def ringIndex (L i : ℕ) : ℕ :=
  if i < L % 64 then L - L % 64 + i else L - L % 64 + i - 64

/-- Invariant of every reachable receiver state: the queue is
contiguous and well-formed, and a receiver without a stream has an
empty queue. -/
def Inv (r : Receiver) : Prop :=
  Contig r.queue ∧ QueueWF r.queue ∧ (r.stream = none → r.queue = [])

/-! Theorems. -/

/-- A fresh aggregate has no median (its count is zero). -/
theorem Aggregate.median_new {T : Type} [Inhabited T] [LinearOrder T] :
    (Aggregate.new (T := T)).median = none := rfl

/-- C5: `now` drops the seconds part of the clock reading.  At the
reading (tv_sec, tv_nsec) = (1, 0) the code returns 0 while the full
microsecond count is 1000000; moreover a strictly later clock reading
(1 s, 0 ns) yields a smaller value than the earlier reading
(0 s, 999000000 ns), so the returned values are not monotonic. -/
theorem now_drops_seconds :
    time.now 1 0 = 0 ∧ time.now_full_micros 1 0 = 1000000 ∧
      time.now 1 0 < time.now 0 999000000 := by
  decide

/-- C6: `generate_session_id` drops the seconds part of the wall-clock
reading.  A source started at wall-clock (100 s, 999000000 ns) gets
session id 999000 while a source started a full second later at
(101 s, 0 ns) gets 0, which is not strictly greater (the full-micros
derivation would give strictly increasing ids). -/
theorem session_id_drops_seconds :
    generate_session_id 100 999000000 = 999000 ∧
      generate_session_id 101 0 = 0 ∧
      ¬ generate_session_id 100 999000000 < generate_session_id 101 0 ∧
      session_id_full_micros 100 999000000 < session_id_full_micros 101 0 := by
  decide

/-- C10: `fill_stream_buffer` asserts that the buffer length is a
multiple of 2 before touching any state: for every odd length it
panics (`assertFail`), and for every even length this assertion never
fires, whatever the receiver state. -/
theorem fill_asserts_even_length (r : Receiver) (n : ℕ) (pts : ℤ) :
    (n % 2 = 1 → r.fill_stream_buffer n pts = FillResult.assertFail) ∧
      (n % 2 = 0 → r.fill_stream_buffer n pts ≠ FillResult.assertFail) := by
  constructor
  · intro h
    simp [Receiver.fill_stream_buffer, h]
  · intro h
    simp only [Receiver.fill_stream_buffer, h]
    norm_num
    split
    · simp
    · split
      · simp
      · split
        · simp
        · split <;> simp

/-- Witness for C10 at buffer lengths 3 and 4 on a fresh receiver. -/
theorem fill_asserts_even_length_witness :
    Receiver.fill_stream_buffer (Receiver.new { max_seq_gap := 12 }) 3 0 =
        FillResult.assertFail ∧
      Receiver.fill_stream_buffer (Receiver.new { max_seq_gap := 12 }) 4 0 ≠
        FillResult.assertFail :=
  ⟨(fill_asserts_even_length _ 3 0).1 rfl, (fill_asserts_even_length _ 4 0).2 rfl⟩

/-- C8: once a timing pair has been set, the controller returns no
adjustment and clears its slew flag whenever the absolute frame offset
is below the (converted) 100 µs stop threshold; and every rate it does
return lies in `[SAMPLE_RATE·98/100, SAMPLE_RATE·2]`. -/
theorem rate_adjust_stop_and_clamp (ra : RateAdjust) (real_ts play_ts : ℤ) :
    ((real_ts - play_ts).natAbs < SampleDuration.from_std_duration_lossy 100 →
        (ra.set_timing real_ts play_ts).adjusted_rate =
          ({ ra.set_timing real_ts play_ts with slew := false }, none)) ∧
      ∀ ra' rate, (ra.set_timing real_ts play_ts).adjusted_rate = (ra', some rate) →
        SAMPLE_RATE * 98 / 100 ≤ rate ∧ rate ≤ SAMPLE_RATE * 2 := by
  constructor
  · intro h
    simp [RateAdjust.adjusted_rate, RateAdjust.set_timing, h]
  · intro ra' rate h
    simp only [RateAdjust.adjusted_rate, RateAdjust.set_timing] at h
    split at h
    · simp at h
    · split at h
      · simp at h
      · simp only [Prod.mk.injEq, Option.some.injEq] at h
        obtain ⟨-, hrate⟩ := h
        set x := Int.tdiv ((real_ts - play_ts) * 1000000) 500000 with hx
        have h1 : ((47040 : ℤ)) ≤ min ((SAMPLE_RATE : ℤ) * 2) (max (Int.tdiv ((SAMPLE_RATE : ℤ) * 98) 100) ((SAMPLE_RATE : ℤ) + x)) := by
          have : Int.tdiv ((SAMPLE_RATE : ℤ) * 98) 100 = 47040 := by decide
          rw [this]
          refine le_min (by norm_num [SAMPLE_RATE]) (le_max_of_le_left (by norm_num))
        have h2 : min ((SAMPLE_RATE : ℤ) * 2) (max (Int.tdiv ((SAMPLE_RATE : ℤ) * 98) 100) ((SAMPLE_RATE : ℤ) + x)) ≤ (96000 : ℤ) :=
          le_trans (min_le_left _ _) (by norm_num [SAMPLE_RATE])
        have hnum : SAMPLE_RATE * 98 / 100 = 47040 := by decide
        have hnum2 : SAMPLE_RATE * 2 = 96000 := by decide
        rw [hnum, hnum2, ← hrate]
        omega

/-- Witness for C8: at frame offset 2 (below the 4-frame stop
threshold) no adjustment is returned, and the rate returned at frame
offset 1000 satisfies the clamp bounds. -/
theorem rate_adjust_stop_and_clamp_witness :
    (RateAdjust.set_timing RateAdjust.new 2 0).adjusted_rate =
        ({ RateAdjust.set_timing RateAdjust.new 2 0 with slew := false }, none) ∧
      SAMPLE_RATE * 98 / 100 ≤ 50000 ∧ 50000 ≤ SAMPLE_RATE * 2 :=
  ⟨(rate_adjust_stop_and_clamp RateAdjust.new 2 0).1 (by decide),
   (rate_adjust_stop_and_clamp RateAdjust.new 1000 0).2
     { RateAdjust.new.set_timing 1000 0 with slew := true } 50000 (by decide)⟩

/-- C4: an audio packet whose sid is strictly greater than the current
stream's sid makes `receive_audio` rebuild the whole stream from that
packet (sync false, `start_seq` the packet's seq, empty aggregates,
fresh resampler and rate-adjust) and replace the queue by the single
fresh slot for the packet (with no adjusted pts, since the fresh
clock-delta aggregate is empty); nothing else of the old stream or old
queue survives. -/
theorem sid_takeover_resets_stream (r : Receiver) (s : Stream) (now : ℕ)
    (p : AudioPacket) (hstream : r.stream = some s) (hsid : s.sid < p.sid)
    (hflags : p.flags = 0) :
    r.receive_audio now p =
      { opt := r.opt
        status := r.status.clear_stream
        stream := some (Stream.start_from_packet p)
        queue := [{ seq := p.seq, pts := none, consumed := 0, packet := some p }] } := by
  have h1 : ¬ p.sid < s.sid := by omega
  simp only [Receiver.receive_audio, Receiver.prepare_stream, hstream, hflags, h1,
    hsid, ne_eq, not_true_eq_false, not_false_eq_true, gt_iff_lt, ite_true, ite_false,
    if_true, if_false]
  simp only [recordDtsPrediction, admitToQueue, Stream.network_latency,
    Stream.adjust_pts, Stream.start_from_packet,
    Aggregate.median_new, Option.map_none', List.getLast?_nil, List.nil_append,
    Nat.sub_self, List.modify, List.modifyTailIdx, List.modifyHead_cons, emptyEntry,
    if_pos rfl, ite_true]

/-- Witness for C4: takeover from session 5 to session 6. -/
theorem sid_takeover_resets_stream_witness :
    Receiver.receive_audio rStream5 0 (mkPacket 6 3) =
      { opt := rStream5.opt
        status := rStream5.status.clear_stream
        stream := some (Stream.start_from_packet (mkPacket 6 3))
        queue := [{ seq := 3, pts := none, consumed := 0,
                    packet := some (mkPacket 6 3) }] } :=
  sid_takeover_resets_stream rStream5 (Stream.start_from_packet (mkPacket 5 1)) 0
    (mkPacket 6 3) rfl (by decide) rfl

/-- Counterexample for C7: the claim requires the state to be unchanged
for a `TimePacket` whose `stream_1`/`stream_3` are unset (zero), but
`receive_time` performs no such check: on an all-zero time packet for
the current session it observes a zero latency and a zero clock delta,
changing the stream's aggregates. -/
theorem receive_time_observes_unset_packet :
    Receiver.receive_time rStream5 tpAllZero ≠ rStream5 := fun h =>
  absurd (congrArg (fun r => r.stream.map (fun s => s.latency.count)) h) (by decide)

/-- C7 (amended): `receive_time` leaves the receiver entirely unchanged
exactly when there is no stream, the packet's sid differs from the
stream's, or `stream_3 < stream_1` (failed checked subtraction —
negative rtt); in every other case — regardless of whether `stream_1`
and `stream_3` are nonzero — it records a latency observation
`(stream_3 − stream_1)/2` and a clock-delta observation in the
stream's aggregates. -/
theorem receive_time_cases (r : Receiver) (p : TimePacket) :
    (r.stream = none → r.receive_time p = r) ∧
      (∀ s, r.stream = some s → s.sid ≠ p.sid → r.receive_time p = r) ∧
      (∀ s, r.stream = some s → p.stream_3 < p.stream_1 → r.receive_time p = r) ∧
      (∀ s, r.stream = some s → s.sid = p.sid → p.stream_1 ≤ p.stream_3 →
        ∃ st : Status, r.receive_time p =
          { r with
            stream := some
              { s with
                latency := s.latency.observe ((p.stream_3 - p.stream_1) / 2)
                clock_delta := s.clock_delta.observe
                  (ClockDelta.from_time_packet_micros p.stream_1 p.receiver_2 p.stream_3) }
            status := st }) := by
  refine ⟨fun h => by simp [Receiver.receive_time, h], fun s hs hsid => ?_,
    fun s hs hlt => ?_, fun s hs hsid hle => ?_⟩
  · simp [Receiver.receive_time, hs, hsid]
  · simp only [Receiver.receive_time, hs]
    split
    · rfl
    · simp [hlt]
  · have hlt : ¬ p.stream_3 < p.stream_1 := by omega
    simp only [Receiver.receive_time, hs, hsid, ne_eq, not_true_eq_false, if_false, hlt]
    exact ⟨_, rfl⟩

/-- Witness for C7 (amended): concrete unchanged case (sid mismatch)
and concrete recording case (the all-zero packet). -/
theorem receive_time_cases_witness :
    Receiver.receive_time rStream5 { tpAllZero with sid := 4 } = rStream5 ∧
      ∃ st : Status, Receiver.receive_time rStream5 tpAllZero =
        { rStream5 with
          stream := some
            { Stream.start_from_packet (mkPacket 5 1) with
              latency := (Stream.start_from_packet (mkPacket 5 1)).latency.observe 0
              clock_delta := (Stream.start_from_packet (mkPacket 5 1)).clock_delta.observe
                (ClockDelta.from_time_packet_micros 0 0 0) }
          status := st } :=
  ⟨(receive_time_cases rStream5 { tpAllZero with sid := 4 }).2.1
      (Stream.start_from_packet (mkPacket 5 1)) rfl (by decide),
   (receive_time_cases rStream5 tpAllZero).2.2.2
      (Stream.start_from_packet (mkPacket 5 1)) rfl (by decide) (by decide)⟩

/-! Lemmas about the queue invariants. -/

theorem isRunFrom_nil (s : ℕ) : isRunFrom s [] := trivial

theorem isRunFrom_cons {s : ℕ} {e : QueueEntry} {q : List QueueEntry} :
    isRunFrom s (e :: q) ↔ e.seq = s ∧ isRunFrom (s + 1) q := Iff.rfl

/-- A run is contiguous from its own front. -/
theorem contig_of_isRunFrom {s : ℕ} {q : List QueueEntry} (h : isRunFrom s q) :
    Contig q := by
  cases q with
  | nil => trivial
  | cons e rest =>
    obtain ⟨he, ht⟩ := h
    exact ⟨rfl, by rw [frontSeq, he]; exact ht⟩

theorem contig_nil : Contig [] := trivial

theorem contig_tail {e : QueueEntry} {q : List QueueEntry} (h : Contig (e :: q)) :
    Contig q := contig_of_isRunFrom h.2

theorem queueWF_nil : QueueWF [] := by intro e he; cases he

theorem queueWF_tail {e : QueueEntry} {q : List QueueEntry} (h : QueueWF (e :: q)) :
    QueueWF q := fun x hx => h x (List.mem_cons_of_mem _ hx)

theorem queueWF_head {e : QueueEntry} {q : List QueueEntry} (h : QueueWF (e :: q)) :
    e.consumed ≤ SampleDuration.ONE_PACKET := h e (List.mem_cons_self _ _)

theorem queueWF_cons {e : QueueEntry} {q : List QueueEntry}
    (he : e.consumed ≤ SampleDuration.ONE_PACKET) (h : QueueWF q) :
    QueueWF (e :: q) := by
  intro x hx
  rcases List.mem_cons.mp hx with hx | hx
  · exact hx ▸ he
  · exact h x hx

/-- Element `i` of a run from `s` has seq `s + i`. -/
theorem isRunFrom_get {q : List QueueEntry} :
    ∀ {s i : ℕ} (h : isRunFrom s q) (hi : i < q.length),
      (q.get ⟨i, hi⟩).seq = s + i := by
  induction q with
  | nil => intro s i _ hi; cases hi
  | cons e rest ih =>
    intro s i h hi
    obtain ⟨he, ht⟩ := h
    cases i with
    | zero => simpa using he
    | succ j =>
      have h2 : (e :: rest).get ⟨j + 1, hi⟩ =
          rest.get ⟨j, by simpa using Nat.lt_of_succ_lt_succ hi⟩ := rfl
      rw [h2, ih ht]
      omega

/-- The last element of a run from `s` has seq `s + length − 1`. -/
theorem isRunFrom_getLast? {q : List QueueEntry} :
    ∀ {s : ℕ} {back : QueueEntry}, isRunFrom s q → q.getLast? = some back →
      back.seq + 1 = s + q.length := by
  induction q with
  | nil => intro s back _ hl; simp at hl
  | cons e rest ih =>
    intro s back h hl
    obtain ⟨he, ht⟩ := h
    cases rest with
    | nil =>
      simp only [List.getLast?_singleton, Option.some.injEq] at hl
      subst hl; simp [he]
    | cons e2 r2 =>
      rw [List.getLast?_cons_cons] at hl
      have := ih ht hl
      simp only [List.length_cons] at this ⊢
      omega

/-- Concatenating a run that starts where `q` ends preserves runs. -/
theorem isRunFrom_append {ext : List QueueEntry} {q : List QueueEntry} :
    ∀ {s : ℕ}, isRunFrom s q → isRunFrom (s + q.length) ext →
      isRunFrom s (q ++ ext) := by
  induction q with
  | nil => intro s _ hext; simpa using hext
  | cons e rest ih =>
    intro s h hext
    obtain ⟨he, ht⟩ := h
    refine ⟨he, ih ht ?_⟩
    have : s + 1 + rest.length = s + (e :: rest).length := by simp; omega
    rw [this]; exact hext

/-- The empty slots pushed for seqs `s, s+1, …` form a run from `s`. -/
theorem isRunFrom_rangeMap : ∀ (cnt s : ℕ),
    isRunFrom s ((List.range cnt).map (fun j => emptyEntry (s + j))) := by
  intro cnt
  induction cnt with
  | zero => intro s; simp [isRunFrom]
  | succ c ih =>
    intro s
    rw [List.range_succ_eq_map, List.map_cons, List.map_map]
    refine ⟨by simp [emptyEntry], ?_⟩
    have hc : ((fun j => emptyEntry (s + j)) ∘ Nat.succ) =
        fun j => emptyEntry (s + 1 + j) := by
      funext j
      simp [Function.comp]
      congr 1
      omega
    rw [hc]
    exact ih (s + 1)

/-- `List.modify` with a seq-preserving function preserves runs. -/
theorem isRunFrom_modify {f : QueueEntry → QueueEntry}
    (hf : ∀ e, (f e).seq = e.seq) {q : List QueueEntry} :
    ∀ {s i : ℕ}, isRunFrom s q → isRunFrom s (List.modify f i q) := by
  induction q with
  | nil => intro s i h; simpa [List.modify_nil] using h
  | cons e rest ih =>
    intro s i h
    obtain ⟨he, ht⟩ := h
    cases i with
    | zero =>
      simp only [List.modify, List.modifyTailIdx, List.modifyHead_cons]
      exact ⟨(hf e).trans he, ht⟩
    | succ j =>
      simp only [List.modify, List.modifyTailIdx]
      exact ⟨he, ih ht⟩

/-- Membership in a modified list comes from a member of the original,
either unchanged or with `f` applied. -/
theorem exists_mem_of_modify {α : Type} (f : α → α) :
    ∀ (i : ℕ) (q : List α) (x : α), x ∈ List.modify f i q →
      ∃ y ∈ q, x = y ∨ x = f y := by
  intro i
  induction i with
  | zero =>
    intro q x hx
    cases q with
    | nil => simp [List.modify_nil] at hx
    | cons e rest =>
      simp only [List.modify, List.modifyTailIdx, List.modifyHead_cons] at hx
      rcases List.mem_cons.mp hx with rfl | hx
      · exact ⟨e, List.mem_cons_self _ _, Or.inr rfl⟩
      · exact ⟨x, List.mem_cons_of_mem _ hx, Or.inl rfl⟩
  | succ j ih =>
    intro q x hx
    cases q with
    | nil => simp [List.modify_nil] at hx
    | cons e rest =>
      simp only [List.modify, List.modifyTailIdx] at hx
      rcases List.mem_cons.mp hx with rfl | hx
      · exact ⟨x, List.mem_cons_self _ _, Or.inl rfl⟩
      · rcases ih rest x (by simpa [List.modify] using hx) with ⟨y, hy, hxy⟩
        exact ⟨y, List.mem_cons_of_mem _ hy, hxy⟩

/-- `List.modify` with a consumed-preserving function preserves
well-formedness. -/
theorem queueWF_modify {f : QueueEntry → QueueEntry}
    (hf : ∀ e, (f e).consumed = e.consumed) {q : List QueueEntry} {i : ℕ}
    (h : QueueWF q) : QueueWF (List.modify f i q) := by
  intro x hx
  rcases exists_mem_of_modify f i q x hx with ⟨y, hy, h1 | h1⟩
  · rw [h1]; exact h y hy
  · rw [h1, hf]; exact h y hy

/-! Lemmas about the copy phase. -/

/-- A queue entry's full buffer always has exactly one packet's worth
of samples. -/
theorem as_full_buffer_length (e : QueueEntry) :
    e.as_full_buffer.length = SAMPLES_PER_PACKET := by
  cases hp : e.packet
  · simp only [QueueEntry.as_full_buffer, hp, List.length_replicate]
  · simp only [QueueEntry.as_full_buffer, hp, List.length_ofFn]

/-- The copy loop never grows the queue and preserves contiguity and
well-formedness. -/
theorem copyLoop_ok_inv :
    ∀ (q : List QueueEntry) (n : ℕ) (ts : Option ℤ) {q' : List QueueEntry}
      {ts' : Option ℤ} {out : List ℚ} {m : Bool},
      copyLoop q n ts = CopyResult.ok q' ts' out m →
      q'.length ≤ q.length ∧ (Contig q → Contig q') ∧ (QueueWF q → QueueWF q') := by
  intro q
  induction q with
  | nil =>
    intro n ts q' ts' out m h
    cases n with
    | zero =>
      simp only [copyLoop, CopyResult.ok.injEq] at h
      obtain ⟨rfl, -, -, -⟩ := h
      exact ⟨le_rfl, fun h => h, fun h => h⟩
    | succ k =>
      simp only [copyLoop, CopyResult.ok.injEq] at h
      obtain ⟨rfl, -, -, -⟩ := h
      exact ⟨le_rfl, fun h => h, fun h => h⟩
  | cons front rest ih =>
    intro n ts q' ts' out m h
    cases n with
    | zero =>
      simp only [copyLoop, CopyResult.ok.injEq] at h
      obtain ⟨rfl, -, -, -⟩ := h
      exact ⟨le_rfl, fun h => h, fun h => h⟩
    | succ k =>
      simp only [copyLoop] at h
      split at h
      · exact absurd h (by simp)
      · split at h
        · split at h
          · exact absurd h (by simp)
          · rename_i heq
            simp only [CopyResult.ok.injEq] at h
            obtain ⟨rfl, -, -, -⟩ := h
            obtain ⟨hl, hc, hw⟩ := ih _ _ heq
            exact ⟨le_trans hl (Nat.le_succ _), fun hcq => hc (contig_tail hcq),
              fun hwq => hw (queueWF_tail hwq)⟩
        · split at h
          · rename_i hoff hne hdz
            simp only [CopyResult.ok.injEq] at h
            obtain ⟨rfl, -, -, -⟩ := h
            refine ⟨by simp, fun hcq => ⟨rfl, hcq.2⟩, fun hwq => ?_⟩
            refine queueWF_cons ?_ (queueWF_tail hwq)
            have hc := queueWF_head hwq
            simp only [Resampler.process_interleaved, List.length_take,
              List.length_drop, as_full_buffer_length,
              SampleDuration.as_buffer_offset, SampleDuration.ONE_PACKET,
              SAMPLES_PER_PACKET, FRAMES_PER_PACKET, CHANNELS] at hoff hc ⊢
            omega
          · exact absurd h (by simp)
/-- On an even buffer and a well-formed queue the copy loop returns
normally, with exactly as many samples written as requested. -/
theorem copyLoop_total :
    ∀ (q : List QueueEntry) (n : ℕ) (ts : Option ℤ), n % 2 = 0 → QueueWF q →
      ∃ q' ts' out m, copyLoop q n ts = CopyResult.ok q' ts' out m ∧
        out.length = n := by
  intro q
  induction q with
  | nil =>
    intro n ts hn hwf
    cases n with
    | zero => exact ⟨[], ts, [], false, rfl, rfl⟩
    | succ k => exact ⟨[], ts, _, true, rfl, by simp⟩
  | cons front rest ih =>
    intro n ts hn hwf
    cases n with
    | zero => exact ⟨front :: rest, ts, [], false, rfl, rfl⟩
    | succ k =>
      have hcons := queueWF_head hwf
      have hoff : ¬ (front.as_full_buffer.length <
          SampleDuration.as_buffer_offset front.consumed) := by
        simp only [as_full_buffer_length, SampleDuration.as_buffer_offset,
          SampleDuration.ONE_PACKET, SAMPLES_PER_PACKET, FRAMES_PER_PACKET,
          CHANNELS] at hcons ⊢
        omega
      simp only [copyLoop, hoff, if_false, ite_false]
      split
      · rename_i hpop
        have hn2 : ((k + 1) - SampleDuration.as_buffer_offset
            (Resampler.process_interleaved
              ((front.as_full_buffer.drop
                  (SampleDuration.as_buffer_offset front.consumed)).take
                (min (k + 1) (front.as_full_buffer.length -
                  SampleDuration.as_buffer_offset front.consumed)))
              (min (k + 1) (front.as_full_buffer.length -
                SampleDuration.as_buffer_offset front.consumed))).output_written) % 2
            = 0 := by
          simp only [Resampler.process_interleaved, List.length_take,
            List.length_drop, as_full_buffer_length,
            SampleDuration.as_buffer_offset, SAMPLES_PER_PACKET,
            FRAMES_PER_PACKET, CHANNELS] at *
          omega
        obtain ⟨q1, ts1, out1, m1, hrec, hlen⟩ := ih _ _ hn2 (queueWF_tail hwf)
        rw [hrec]
        refine ⟨q1, ts1, _, m1, rfl, ?_⟩
        simp only [List.length_append, hlen, List.length_take,
          Resampler.process_interleaved, List.length_drop, as_full_buffer_length,
          SampleDuration.as_buffer_offset, SAMPLES_PER_PACKET,
          FRAMES_PER_PACKET, CHANNELS] at *
        omega
      · rename_i hpop
        have hdz : ((k + 1) - SampleDuration.as_buffer_offset
            (Resampler.process_interleaved
              ((front.as_full_buffer.drop
                  (SampleDuration.as_buffer_offset front.consumed)).take
                (min (k + 1) (front.as_full_buffer.length -
                  SampleDuration.as_buffer_offset front.consumed)))
              (min (k + 1) (front.as_full_buffer.length -
                SampleDuration.as_buffer_offset front.consumed))).output_written)
            = 0 := by
          simp only [Resampler.process_interleaved, List.length_take,
            List.length_drop, as_full_buffer_length,
            SampleDuration.as_buffer_offset, SampleDuration.ONE_PACKET,
            SAMPLES_PER_PACKET, FRAMES_PER_PACKET, CHANNELS] at *
          omega
        rw [if_pos hdz]
        refine ⟨_, _, _, false, rfl, ?_⟩
        simp only [List.length_take, Resampler.process_interleaved,
          List.length_drop, as_full_buffer_length,
          SampleDuration.as_buffer_offset, SampleDuration.ONE_PACKET,
          SAMPLES_PER_PACKET, FRAMES_PER_PACKET, CHANNELS] at *
        omega
/-! Lemmas about the sync phase. -/

/-- The sync loop never grows the queue and preserves contiguity and
well-formedness. -/
theorem syncLoop_inv (pts : ℤ) (n : ℕ) :
    ∀ q : List QueueEntry,
      (syncLoop pts n q).queue.length ≤ q.length ∧
        (Contig q → Contig (syncLoop pts n q).queue) ∧
        (QueueWF q → QueueWF (syncLoop pts n q).queue) := by
  intro q
  induction q with
  | nil =>
    exact ⟨le_rfl, fun _ => contig_nil, fun _ => queueWF_nil⟩
  | cons front rest ih =>
    simp only [syncLoop]
    cases hp : front.pts with
    | none =>
      exact ⟨Nat.le_succ _, fun hc => contig_tail hc, fun hw => queueWF_tail hw⟩
    | some fpts =>
      dsimp only
      split_ifs with h1 h2 h3
      · obtain ⟨hl, hc, hw⟩ := ih
        exact ⟨le_trans hl (Nat.le_succ _), fun hcq => hc (contig_tail hcq),
          fun hwq => hw (queueWF_tail hwq)⟩
      · refine ⟨by simp [SyncResult.queue], fun hcq => ⟨rfl, hcq.2⟩, fun hwq => ?_⟩
        refine queueWF_cons ?_ (queueWF_tail hwq)
        simp only [SampleDuration.ONE_PACKET, FRAMES_PER_PACKET] at h2 ⊢
        omega
      · exact ⟨le_rfl, fun hc => hc, fun hw => hw⟩
      · exact ⟨le_rfl, fun hc => hc, fun hw => hw⟩

/-- The sync loop either returns early (the whole buffer is silence) or
proceeds having just set the sync flag, with an even silence prefix of
at most the buffer length. -/
theorem syncLoop_shape (pts : ℤ) (n : ℕ) :
    ∀ q : List QueueEntry,
      (∃ q1, syncLoop pts n q = SyncResult.earlyReturn q1) ∨
        (∃ q1 zc, syncLoop pts n q = SyncResult.proceed q1 zc true ∧
          zc % 2 = 0 ∧ zc ≤ n) := by
  intro q
  induction q with
  | nil => exact Or.inl ⟨[], rfl⟩
  | cons front rest ih =>
    simp only [syncLoop]
    cases hp : front.pts with
    | none => exact Or.inl ⟨rest, rfl⟩
    | some fpts =>
      dsimp only
      split_ifs with h1 h2 h3
      · exact ih
      · exact Or.inr ⟨_, 0, rfl, rfl, Nat.zero_le _⟩
      · exact Or.inl ⟨front :: rest, rfl⟩
      · refine Or.inr ⟨front :: rest, _, rfl, ?_, ?_⟩
        · simp [SampleDuration.as_buffer_offset, CHANNELS, Nat.mul_mod_left]
        · simp only [SampleDuration.from_buffer_offset, CHANNELS, not_le] at h3
          simp only [SampleDuration.as_buffer_offset, CHANNELS]
          omega
/-! Lemmas about `fill_stream_buffer` as a whole. -/

/-- A normal fill never grows the queue and preserves contiguity and
well-formedness; it also preserves the receiver options, and a fill
without a stream changes nothing but renders the status. -/
theorem fill_ok_inv {r r' : Receiver} {n : ℕ} {pts : ℤ} {out : List ℚ}
    (h : r.fill_stream_buffer n pts = FillResult.ok r' out) :
    r'.queue.length ≤ r.queue.length ∧
      (Contig r.queue → Contig r'.queue) ∧
      (QueueWF r.queue → QueueWF r'.queue) ∧
      r'.opt = r.opt ∧
      (r.stream = none → r' = { r with status := r.status.render }) ∧
      (r'.stream = none → r.stream = none) := by
  simp only [Receiver.fill_stream_buffer] at h
  split at h
  · exact absurd h (by simp)
  · split at h
    · rename_i hs
      simp only [FillResult.ok.injEq] at h
      obtain ⟨rfl, -⟩ := h
      exact ⟨le_rfl, fun hc => hc, fun hw => hw, rfl, fun _ => rfl, fun hh => hh⟩
    · rename_i stream hs
      have hnotnone : ¬ r.stream = none := by simp [hs]
      split at h
      · rename_i queue1 hsync
        have hq1 : queue1.length ≤ r.queue.length ∧
            (Contig r.queue → Contig queue1) ∧ (QueueWF r.queue → QueueWF queue1) := by
          by_cases hb : stream.sync
          · rw [if_pos hb] at hsync; cases hsync
          · rw [if_neg hb] at hsync
            obtain ⟨hl, hc, hw⟩ := syncLoop_inv pts n r.queue
            rw [hsync] at hl hc hw
            exact ⟨hl, hc, hw⟩
        simp only [FillResult.ok.injEq] at h
        obtain ⟨rfl, -⟩ := h
        exact ⟨hq1.1, hq1.2.1, hq1.2.2, rfl, fun habs => absurd habs hnotnone,
          fun hh => hh⟩
      · rename_i queue1 zc setSync hsync
        have hq1 : queue1.length ≤ r.queue.length ∧
            (Contig r.queue → Contig queue1) ∧ (QueueWF r.queue → QueueWF queue1) := by
          by_cases hb : stream.sync
          · rw [if_pos hb] at hsync
            injection hsync with h1 h2 h3
            rw [← h1]
            exact ⟨le_rfl, fun hc => hc, fun hw => hw⟩
          · rw [if_neg hb] at hsync
            obtain ⟨hl, hc, hw⟩ := syncLoop_inv pts n r.queue
            rw [hsync] at hl hc hw
            exact ⟨hl, hc, hw⟩
        split at h
        · exact absurd h (by simp)
        · rename_i queue2 ts out2 missed hcopy
          obtain ⟨hl2, hc2, hw2⟩ := copyLoop_ok_inv queue1 (n - zc) none hcopy
          have hres : r'.queue = queue2 ∧ r'.opt = r.opt ∧ r'.stream ≠ none := by
            repeat' split at h
            all_goals simp only [FillResult.ok.injEq] at h
            all_goals obtain ⟨rfl, -⟩ := h
            all_goals exact ⟨rfl, rfl, by simp⟩
          refine ⟨?_, ?_, ?_, hres.2.1, fun habs => absurd habs hnotnone,
            fun hh => absurd hh hres.2.2⟩
          · rw [hres.1]; exact le_trans hl2 hq1.1
          · intro hc; rw [hres.1]; exact hc2 (hq1.2.1 hc)
          · intro hw; rw [hres.1]; exact hw2 (hq1.2.2 hw)

/-- C1: in every receiver state — no stream, unsynced or synced stream,
empty or non-empty queue, for every playback pts — a call of
`fill_stream_buffer` with an even-length buffer returns normally and
writes exactly `buffer.len()` samples.  The only hypothesis beyond the
claim is the consumed-bound well-formedness of the queue entries, an
invariant `runOps_inv` proves of every reachable state. -/
theorem fill_writes_exactly_len (r : Receiver) (n : ℕ) (pts : ℤ) (hn : n % 2 = 0)
    (hwf : QueueWF r.queue) :
    ∃ r' out, r.fill_stream_buffer n pts = FillResult.ok r' out ∧
      out.length = n := by
  simp only [Receiver.fill_stream_buffer]
  rw [if_neg (by omega)]
  cases hs : r.stream with
  | none => exact ⟨_, _, rfl, by simp⟩
  | some stream =>
    dsimp only
    by_cases hb : stream.sync
    · rw [if_pos hb]
      dsimp only
      obtain ⟨q', ts', out, m, hrec, hlen⟩ :=
        copyLoop_total r.queue (n - 0) none (by omega) hwf
      rw [hrec]
      cases m with
      | true =>
        exact ⟨_, _, rfl, by simp [hlen]⟩
      | false =>
        refine ⟨_, _, rfl, ?_⟩
        simp [hlen]
    · rw [if_neg hb]
      rcases syncLoop_shape pts n r.queue with ⟨q1, hsync⟩ | ⟨q1, zc, hsync, hzc2, hzcle⟩
      · rw [hsync]
        exact ⟨_, _, rfl, by simp⟩
      · rw [hsync]
        dsimp only
        have hwfq1 : QueueWF q1 := by
          have := (syncLoop_inv pts n r.queue).2.2 hwf
          rw [hsync] at this
          exact this
        obtain ⟨q', ts', out, m, hrec, hlen⟩ :=
          copyLoop_total q1 (n - zc) none (by omega) hwfq1
        rw [hrec]
        cases m with
        | true =>
          refine ⟨_, _, rfl, ?_⟩
          simp only [List.length_append, List.length_replicate, hlen]
          omega
        | false =>
          refine ⟨_, _, rfl, ?_⟩
          simp only [List.length_append, List.length_replicate, hlen]
          omega
/-! Lemmas about `receive_audio`. -/

/-- `recordDtsPrediction` only touches the status. -/
theorem recordDtsPrediction_queue (r : Receiver) (stream : Stream) (now : ℕ)
    (p : AudioPacket) :
    (recordDtsPrediction r stream now p).queue = r.queue ∧
      (recordDtsPrediction r stream now p).opt = r.opt ∧
      (recordDtsPrediction r stream now p).stream = r.stream := by
  unfold recordDtsPrediction
  split <;> exact ⟨rfl, rfl, rfl⟩

/-- `prepare_stream` either rejects the packet leaving the receiver
unchanged, or clears the queue (takeover / reset / fresh stream, which
by the receiver invariant implies an empty queue), or accepts it with
the queue unchanged, in which case any queue back is less than
`max_seq_gap` away from the packet's seq. -/
theorem prepare_stream_cases (r : Receiver) (p : AudioPacket)
    (hsi : r.stream = none → r.queue = []) :
    ((r.prepare_stream p).1 = r ∧ (r.prepare_stream p).2 = false) ∨
      ((r.prepare_stream p).1.queue = [] ∧ (r.prepare_stream p).1.opt = r.opt) ∨
      ((r.prepare_stream p).1 = r ∧
        ∀ back, r.queue.getLast? = some back →
          p.seq < back.seq + r.opt.max_seq_gap) := by
  unfold Receiver.prepare_stream
  cases hs : r.stream with
  | none =>
    dsimp only
    exact Or.inr (Or.inl ⟨hsi hs, rfl⟩)
  | some stream =>
    dsimp only
    split_ifs with h1 h2 h3
    · exact Or.inl ⟨rfl, rfl⟩
    · exact Or.inr (Or.inl ⟨rfl, rfl⟩)
    · exact Or.inl ⟨rfl, rfl⟩
    · cases hq : r.queue with
      | nil =>
        exact Or.inr (Or.inr ⟨rfl, fun back hb => absurd hb (by simp)⟩)
      | cons front rest =>
        dsimp only
        split_ifs with h4
        · exact Or.inl ⟨rfl, rfl⟩
        · cases hlast : (front :: rest).getLast? with
          | none => exact absurd (List.getLast?_eq_none_iff.mp hlast) (by simp)
          | some back =>
            dsimp only
            split_ifs with h5
            · exact Or.inr (Or.inl ⟨rfl, rfl⟩)
            · refine Or.inr (Or.inr ⟨rfl, fun back2 hb => ?_⟩)
              injection hb with hb
              rw [← hb]
              omega
/-- Admitting a packet preserves contiguity and well-formedness, and
grows the queue by less than the gap bound `G` whenever the packet's
seq is within `G` of the back. -/
theorem admitToQueue_inv (stream : Stream) (q : List QueueEntry) (p : AudioPacket)
    (G : ℕ) (hgap : ∀ back, q.getLast? = some back → p.seq < back.seq + G)
    (hC : Contig q) (hW : QueueWF q) :
    Contig (admitToQueue stream q p) ∧ QueueWF (admitToQueue stream q p) ∧
      (admitToQueue stream q p).length ≤ q.length + max (G - 1) 1 := by
  have hf_seq : ∀ e : QueueEntry,
      ((fun slot => if slot.seq = p.seq then
          { slot with packet := some p
                      pts := stream.adjust_pts (Timestamp.from_micros_lossy p.pts) }
        else slot) e).seq = e.seq := by
    intro e; dsimp only; split <;> rfl
  have hf_con : ∀ e : QueueEntry,
      ((fun slot => if slot.seq = p.seq then
          { slot with packet := some p
                      pts := stream.adjust_pts (Timestamp.from_micros_lossy p.pts) }
        else slot) e).consumed = e.consumed := by
    intro e; dsimp only; split <;> rfl
  unfold admitToQueue
  cases hlast : q.getLast? with
  | none =>
    have hq : q = [] := List.getLast?_eq_none_iff.mp hlast
    subst hq
    dsimp only
    refine ⟨contig_of_isRunFrom (s := p.seq) (isRunFrom_modify hf_seq ?_),
      queueWF_modify hf_con ?_, ?_⟩
    · exact ⟨by simp [emptyEntry], trivial⟩
    · intro e he
      rcases List.mem_singleton.mp he with rfl
      simp [emptyEntry]
    · rw [List.length_modify]
      simp only [List.length_singleton, List.length_nil]
      omega
  | some back =>
    have hgb := hgap back hlast
    dsimp only
    by_cases hgt : p.seq > back.seq
    · rw [if_pos hgt]
      have hrun : isRunFrom (frontSeq q) q := hC
      have hback : back.seq + 1 = frontSeq q + q.length := isRunFrom_getLast? hrun hlast
      have hext : isRunFrom (frontSeq q + q.length)
          ((List.range (p.seq - back.seq)).map
            (fun j => emptyEntry (back.seq + 1 + j))) := by
        rw [← hback]
        exact isRunFrom_rangeMap _ _
      have happ := isRunFrom_append hrun hext
      refine ⟨contig_of_isRunFrom (isRunFrom_modify hf_seq happ),
        queueWF_modify hf_con ?_, ?_⟩
      · intro e he
        rcases List.mem_append.mp he with he | he
        · exact hW e he
        · rcases List.mem_map.mp he with ⟨j, -, rfl⟩
          simp [emptyEntry]
      · rw [List.length_modify, List.length_append, List.length_map,
          List.length_range]
        omega
    · rw [if_neg hgt]
      exact ⟨contig_of_isRunFrom (isRunFrom_modify hf_seq hC),
        queueWF_modify hf_con hW, by rw [List.length_modify]; omega⟩

/-- One `receive_audio` call preserves contiguity, well-formedness and
the stream/queue invariant, keeps the options, and grows the queue by
at most `max (max_seq_gap − 1) 1` entries. -/
theorem receive_audio_inv (r : Receiver) (now : ℕ) (p : AudioPacket)
    (hsi : r.stream = none → r.queue = []) (hC : Contig r.queue)
    (hW : QueueWF r.queue) :
    Contig (r.receive_audio now p).queue ∧
      QueueWF (r.receive_audio now p).queue ∧
      (r.receive_audio now p).queue.length ≤
        r.queue.length + max (r.opt.max_seq_gap - 1) 1 ∧
      ((r.receive_audio now p).stream = none → (r.receive_audio now p).queue = []) ∧
      (r.receive_audio now p).opt = r.opt := by
  unfold Receiver.receive_audio
  by_cases hflags : p.flags ≠ 0
  · rw [if_pos hflags]
    exact ⟨hC, hW, by omega, hsi, rfl⟩
  · rw [if_neg hflags]
    have hcases := prepare_stream_cases r p hsi
    rcases hps : r.prepare_stream p with ⟨r1, b⟩
    rw [hps] at hcases
    dsimp only at hcases
    cases b with
    | false =>
      dsimp only
      rcases hcases with ⟨hr1, -⟩ | ⟨hq1, hopt1⟩ | ⟨hr1, -⟩
      · rw [hr1]; exact ⟨hC, hW, by omega, hsi, rfl⟩
      · exact ⟨by rw [hq1]; exact contig_nil, by rw [hq1]; exact queueWF_nil,
          by rw [hq1]; simp, fun _ => hq1, hopt1⟩
      · rw [hr1]; exact ⟨hC, hW, by omega, hsi, rfl⟩
    | true =>
      dsimp only
      cases hstream : r1.stream with
      | none =>
        dsimp only
        rcases hcases with ⟨-, habs⟩ | ⟨hq1, hopt1⟩ | ⟨hr1, -⟩
        · simp at habs
        · exact ⟨by rw [hq1]; exact contig_nil, by rw [hq1]; exact queueWF_nil,
            by rw [hq1]; simp, fun _ => hq1, hopt1⟩
        · rw [hr1]
          rw [hr1] at hstream
          have hqe : r.queue = [] := hsi hstream
          exact ⟨hC, hW, by omega, fun _ => hqe, rfl⟩
      | some stream =>
        dsimp only
        obtain ⟨hq2, hopt2, hst2⟩ := recordDtsPrediction_queue r1 stream now p
        rcases hcases with ⟨-, habs⟩ | ⟨hq1, hopt1⟩ | ⟨hr1, hguard⟩
        · simp at habs
        · have hadm := admitToQueue_inv stream (recordDtsPrediction r1 stream now p).queue
            p r.opt.max_seq_gap
            (by rw [hq2, hq1]; intro back hb; exact absurd hb (by simp))
            (by rw [hq2, hq1]; exact contig_nil)
            (by rw [hq2, hq1]; exact queueWF_nil)
          refine ⟨hadm.1, hadm.2.1, ?_, fun hh => ?_, by rw [hopt2, hopt1]⟩
          · refine le_trans hadm.2.2 ?_
            rw [hq2, hq1]
            simp
          · rw [hst2] at hh
            rw [hstream] at hh
            cases hh
        · have hadm := admitToQueue_inv stream (recordDtsPrediction r1 stream now p).queue
            p r.opt.max_seq_gap
            (by rw [hq2, hr1]; exact hguard)
            (by rw [hq2, hr1]; exact hC)
            (by rw [hq2, hr1]; exact hW)
          refine ⟨hadm.1, hadm.2.1, ?_, fun hh => ?_, by rw [hopt2, hr1]⟩
          · refine le_trans hadm.2.2 ?_
            rw [hq2, hr1]
          · rw [hst2] at hh
            rw [hstream] at hh
            cases hh

theorem applyOp_inv (r : Receiver) (op : Op) (h : Inv r) :
    Inv (applyOp r op) ∧ (applyOp r op).opt = r.opt := by
  obtain ⟨hC, hW, hsi⟩ := h
  cases op with
  | audio now p =>
    obtain ⟨c, w, len, si, hopt⟩ := receive_audio_inv r now p hsi hC hW
    exact ⟨⟨c, w, si⟩, hopt⟩
  | fillBuf n pts =>
    dsimp only [applyOp]
    cases hf : r.fill_stream_buffer n pts with
    | assertFail => exact ⟨⟨hC, hW, hsi⟩, rfl⟩
    | stuck => exact ⟨⟨hC, hW, hsi⟩, rfl⟩
    | ok r' out =>
      obtain ⟨hl, hc, hw, hopt, hnone, hsn⟩ := fill_ok_inv hf
      refine ⟨⟨hc hC, hw hW, fun hh => ?_⟩, hopt⟩
      have hrs := hsn hh
      rw [hnone hrs]
      exact hsi hrs

theorem runOps_inv_aux : ∀ (ops : List Op) (r : Receiver), Inv r →
    Inv (runOps r ops) ∧ (runOps r ops).opt = r.opt := by
  intro ops
  induction ops with
  | nil => exact fun r h => ⟨h, rfl⟩
  | cons op rest ih =>
    intro r h
    obtain ⟨h1, hopt1⟩ := applyOp_inv r op h
    obtain ⟨h2, hopt2⟩ := ih (applyOp r op) h1
    exact ⟨h2, hopt2.trans hopt1⟩

/-- Every receiver reachable from `Receiver.new` by `receive_audio` and
`fill_stream_buffer` calls satisfies the invariant and keeps its
options. -/
theorem runOps_inv (o : ReceiverOpt) (ops : List Op) :
    Inv (runOps (Receiver.new o) ops) ∧ (runOps (Receiver.new o) ops).opt = o :=
  runOps_inv_aux ops (Receiver.new o) ⟨contig_nil, queueWF_nil, fun _ => rfl⟩

/-- Witness for C1 on a synced stream with a non-empty queue (the copy
phase runs): a 4-sample fill returns normally with 4 samples. -/
theorem fill_writes_exactly_len_witness :
    (4 % 2 = 0) ∧ QueueWF rSynced.queue ∧
      ∃ r' out, rSynced.fill_stream_buffer 4 0 = FillResult.ok r' out ∧
        out.length = 4 := by
  have hwf : QueueWF rSynced.queue := by
    intro e he
    rcases List.mem_singleton.mp he with rfl
    decide
  exact ⟨rfl, hwf, fill_writes_exactly_len rSynced 4 0 rfl hwf⟩

/-- C2: after every sequence of `receive_audio` and
`fill_stream_buffer` calls, the queue's sequence numbers are contiguous
and strictly increasing: entry `i` has seq `front.seq + i`. -/
theorem queue_seq_contiguous (gap : ℕ) (ops : List Op) (i : ℕ)
    (h : i < (runOps (Receiver.new { max_seq_gap := gap }) ops).queue.length) :
    ((runOps (Receiver.new { max_seq_gap := gap }) ops).queue.get ⟨i, h⟩).seq =
      frontSeq (runOps (Receiver.new { max_seq_gap := gap }) ops).queue + i :=
  isRunFrom_get (runOps_inv { max_seq_gap := gap } ops).1.1 h

/-- Witness for C2: after admitting seqs 1 and 3 the queue is
`[1, 2, 3]` and entry 2 carries seq `front.seq + 2`. -/
theorem queue_seq_contiguous_witness :
    (2 < (runOps (Receiver.new { max_seq_gap := 12 })
        [Op.audio 0 (mkPacket 7 1), Op.audio 0 (mkPacket 7 3)]).queue.length) ∧
      ((runOps (Receiver.new { max_seq_gap := 12 })
          [Op.audio 0 (mkPacket 7 1), Op.audio 0 (mkPacket 7 3)]).queue.get
        ⟨2, by decide⟩).seq =
        frontSeq (runOps (Receiver.new { max_seq_gap := 12 })
          [Op.audio 0 (mkPacket 7 1), Op.audio 0 (mkPacket 7 3)]).queue + 2 :=
  ⟨by decide,
   queue_seq_contiguous 12 [Op.audio 0 (mkPacket 7 1), Op.audio 0 (mkPacket 7 3)] 2
     (by decide)⟩

/-- Counterexample for C3: with `max_seq_gap = 2`, admitting seqs
1, 2, 3, 4 (each within the gap of the current back, so no reset fires)
leaves 4 entries in the queue, exceeding the claimed bound
`max_seq_gap + 1 = 3`. -/
theorem queue_exceeds_gap_bound :
    (runOps (Receiver.new { max_seq_gap := 2 })
        [Op.audio 0 (mkPacket 7 1), Op.audio 0 (mkPacket 7 2),
         Op.audio 0 (mkPacket 7 3), Op.audio 0 (mkPacket 7 4)]).queue.length = 4 ∧
      ¬ ((runOps (Receiver.new { max_seq_gap := 2 })
          [Op.audio 0 (mkPacket 7 1), Op.audio 0 (mkPacket 7 2),
           Op.audio 0 (mkPacket 7 3), Op.audio 0 (mkPacket 7 4)]).queue.length ≤
        2 + 1) := by
  decide

/-- C3 (amended): the queue is not bounded by `max_seq_gap + 1`;
instead, in every reachable state a `receive_audio` call grows the
queue by at most `max (max_seq_gap − 1) 1` entries (the admit guard
keeps the packet's seq within `max_seq_gap` of the back), and a normal
`fill_stream_buffer` call never grows it. -/
theorem queue_growth_bound (gap : ℕ) (ops : List Op) (now : ℕ) (p : AudioPacket)
    (n : ℕ) (pts : ℤ) :
    ((runOps (Receiver.new { max_seq_gap := gap }) ops).receive_audio now p).queue.length ≤
        (runOps (Receiver.new { max_seq_gap := gap }) ops).queue.length +
          max (gap - 1) 1 ∧
      ∀ r' out,
        (runOps (Receiver.new { max_seq_gap := gap }) ops).fill_stream_buffer n pts =
          FillResult.ok r' out →
        r'.queue.length ≤ (runOps (Receiver.new { max_seq_gap := gap }) ops).queue.length := by
  obtain ⟨⟨hC, hW, hsi⟩, hopt⟩ := runOps_inv { max_seq_gap := gap } ops
  constructor
  · have hgrow := (receive_audio_inv _ now p hsi hC hW).2.2.1
    rw [hopt] at hgrow
    exact hgrow
  · intro r' out hf
    exact (fill_ok_inv hf).1

/-- Witness for C3 (amended): concrete growth check with gap 2 after
one admitted packet, and a fill that does not grow the queue. -/
theorem queue_growth_bound_witness :
    ((runOps (Receiver.new { max_seq_gap := 2 }) [Op.audio 0 (mkPacket 7 1)]).receive_audio
        0 (mkPacket 7 2)).queue.length ≤
      (runOps (Receiver.new { max_seq_gap := 2 }) [Op.audio 0 (mkPacket 7 1)]).queue.length +
        max (2 - 1) 1 :=
  (queue_growth_bound 2 [Op.audio 0 (mkPacket 7 1)] 0 (mkPacket 7 2) 0 0).1

/-! The ring-buffer characterization of `Aggregate`. -/

theorem observeAll_append {T : Type} (a : Aggregate T) (vs : List T) (v : T) :
    Aggregate.observeAll a (vs ++ [v]) = (Aggregate.observeAll a vs).observe v := by
  simp [Aggregate.observeAll, List.foldl_append]

/-- After observing `vs` from a fresh aggregate: the count is
`min (N, 64)`, the write index is `N % 64`, and slot `i` holds the last
observation whose position is congruent to `i` mod 64. -/
theorem observeAll_state {T : Type} [Inhabited T] (vs : List T) :
    (Aggregate.observeAll Aggregate.new vs).count = min vs.length 64 ∧
      ((Aggregate.observeAll Aggregate.new vs).index : ℕ) = vs.length % 64 ∧
      ∀ i : Fin 64, (Aggregate.observeAll Aggregate.new vs).samples i =
        if (i : ℕ) < min vs.length 64 then
          vs.getD (ringIndex vs.length (i : ℕ)) default
        else default := by
  induction vs using List.reverseRecOn with
  | nil =>
    refine ⟨rfl, rfl, fun i => ?_⟩
    simp [Aggregate.observeAll, Aggregate.new]
  | append_singleton vs v ih =>
    obtain ⟨hcnt, hidx, hsmp⟩ := ih
    rw [observeAll_append]
    refine ⟨?_, ?_, ?_⟩
    · simp only [Aggregate.observe, hcnt, List.length_append, List.length_singleton]
      split_ifs <;> omega
    · simp only [Aggregate.observe, List.length_append, List.length_singleton,
        Fin.val_add]
      have h1 : ((1 : Fin 64) : ℕ) = 1 := rfl
      rw [h1, hidx]
      omega
    · intro i
      simp only [Aggregate.observe, Function.update_apply, List.length_append,
        List.length_singleton]
      by_cases hie : i = (Aggregate.observeAll Aggregate.new vs).index
      · rw [if_pos hie]
        have hiv : (i : ℕ) = vs.length % 64 := by rw [hie, hidx]
        have hmod : vs.length % 64 < 64 := Nat.mod_lt _ (by norm_num)
        rw [if_pos (by omega : (i : ℕ) < min (vs.length + 1) 64)]
        have hw : ringIndex (vs.length + 1) (i : ℕ) = vs.length := by
          unfold ringIndex
          split_ifs <;> omega
        rw [hw, List.getD_append_right vs [v] default vs.length le_rfl]
        simp
      · rw [if_neg hie, hsmp i]
        have hine : (i : ℕ) ≠ vs.length % 64 := by
          intro hc
          exact hie (Fin.ext (hc.trans hidx.symm))
        by_cases h1 : (i : ℕ) < min vs.length 64
        · rw [if_pos h1, if_pos (by omega : (i : ℕ) < min (vs.length + 1) 64)]
          have hww : ringIndex (vs.length + 1) (i : ℕ) = ringIndex vs.length (i : ℕ) := by
            unfold ringIndex
            split_ifs <;> omega
          have hwlt : ringIndex vs.length (i : ℕ) < vs.length := by
            unfold ringIndex
            split_ifs <;> omega
          rw [hww, List.getD_append vs [v] default _ hwlt]
        · rw [if_neg h1, if_neg (by omega : ¬ ((i : ℕ) < min (vs.length + 1) 64))]

/-- Two list lookups at equal indices agree. -/
theorem getElem_congr_index {α : Type} (l : List α) {a b : ℕ} (ha : a < l.length)
    (hb : b < l.length) (h : a = b) : l[a] = l[b] := by
  subst h
  rfl

/-- Sorting is invariant under permutation: the sorted versions of two
permuted lists coincide over a linear order. -/
theorem insertionSort_eq_of_perm {T : Type} [LinearOrder T] {l1 l2 : List T}
    (h : l1.Perm l2) :
    l1.insertionSort (· ≤ ·) = l2.insertionSort (· ≤ ·) :=
  List.eq_of_perm_of_sorted
    ((List.perm_insertionSort _ _).trans (h.trans (List.perm_insertionSort _ _).symm))
    (List.sorted_insertionSort _ _) (List.sorted_insertionSort _ _)

/-- The retained ring content after observing `vs` is exactly the last
`min (N, 64)` observations, up to rotation. -/
theorem observeAll_window_perm {T : Type} [LinearOrder T] [Inhabited T] (vs : List T) :
    ((List.ofFn (Aggregate.observeAll Aggregate.new vs).samples).take
        (Aggregate.observeAll Aggregate.new vs).count).Perm (lastWindow vs) := by
  obtain ⟨hcnt, hidx, hsmp⟩ := observeAll_state vs
  by_cases hL : vs.length ≤ 64
  · have heq : (List.ofFn (Aggregate.observeAll Aggregate.new vs).samples).take
        (Aggregate.observeAll Aggregate.new vs).count = vs := by
      apply List.ext_getElem
      · simp only [List.length_take, List.length_ofFn, hcnt]
        omega
      · intro n h1 h2
        rw [List.getElem_take, List.getElem_ofFn]
        have hn64 : n < 64 := by
          simp only [List.length_take, List.length_ofFn, hcnt] at h1
          omega
        rw [hsmp ⟨n, hn64⟩]
        rw [if_pos (show ((⟨n, hn64⟩ : Fin 64) : ℕ) < min vs.length 64 by
          simp only
          omega)]
        have hr : ringIndex vs.length n = n := by
          unfold ringIndex
          split_ifs <;> omega
        simp only [hr]
        exact List.getD_eq_getElem vs default h2
    have hwin : lastWindow vs = vs := by
      unfold lastWindow
      rw [show vs.length - min vs.length 64 = 0 by omega, List.drop_zero]
    rw [heq, hwin]
  · have heq : (List.ofFn (Aggregate.observeAll Aggregate.new vs).samples).take
        (Aggregate.observeAll Aggregate.new vs).count =
          (lastWindow vs).rotate (64 - vs.length % 64) := by
      apply List.ext_getElem
      · simp only [List.length_take, List.length_ofFn, hcnt, List.length_rotate,
          lastWindow, List.length_drop]
        omega
      · intro n h1 h2
        have hn64 : n < 64 := by
          simp only [List.length_take, List.length_ofFn, hcnt] at h1
          omega
        rw [List.getElem_take, List.getElem_ofFn, hsmp ⟨n, hn64⟩]
        rw [if_pos (show ((⟨n, hn64⟩ : Fin 64) : ℕ) < min vs.length 64 by
          simp only
          omega)]
        have hrlt : ringIndex vs.length n < vs.length := by
          unfold ringIndex
          split_ifs <;> omega
        rw [List.getElem_rotate]
        simp only [lastWindow, List.length_drop, List.getElem_drop]
        rw [List.getD_eq_getElem vs default hrlt]
        apply getElem_congr_index
        have hmm : vs.length - (vs.length - min vs.length 64) = 64 := by omega
        rw [hmm]
        unfold ringIndex
        split_ifs <;> omega
    rw [heq]
    exact List.rotate_perm _ _

/-- C9: after any sequence of `observe` calls on a fresh aggregate,
`median` equals the median of the last `min (N, 64)` observed values
(the ring overwrites the oldest once more than 64 have been observed),
and `median` is `none` exactly when no value has been observed. -/
theorem aggregate_median_spec {T : Type} [LinearOrder T] [Inhabited T] (vs : List T) :
    (Aggregate.observeAll Aggregate.new vs).median = medianOfList (lastWindow vs) ∧
      ((Aggregate.observeAll Aggregate.new vs).median = none ↔ vs.length = 0) := by
  obtain ⟨hcnt, -, -⟩ := observeAll_state vs
  have hwlen : (lastWindow vs).length = min vs.length 64 := by
    simp only [lastWindow, List.length_drop]
    omega
  have hmain : (Aggregate.observeAll Aggregate.new vs).median =
      medianOfList (lastWindow vs) := by
    unfold Aggregate.median medianOfList
    rw [insertionSort_eq_of_perm (observeAll_window_perm vs), hcnt, hwlen]
  refine ⟨hmain, ?_⟩
  rw [hmain]
  unfold medianOfList
  have hslen : ((lastWindow vs).insertionSort (· ≤ ·)).length = min vs.length 64 := by
    rw [List.length_insertionSort, hwlen]
  constructor
  · intro h
    by_contra hne
    have hi : (lastWindow vs).length / 2 <
        ((lastWindow vs).insertionSort (· ≤ ·)).length := by
      rw [hslen, hwlen]
      omega
    rw [List.getElem?_eq_getElem hi] at h
    cases h
  · intro h
    apply List.getElem?_eq_none
    rw [hslen, hwlen, h]
    simp

/-- Witness for C9 at the concrete observation sequence `[3, 1] : List ℤ`. -/
theorem aggregate_median_spec_witness :
    (Aggregate.observeAll Aggregate.new [(3 : ℤ), 1]).median =
        medianOfList (lastWindow [(3 : ℤ), 1]) ∧
      ((Aggregate.observeAll Aggregate.new [(3 : ℤ), 1]).median = none ↔
        ([(3 : ℤ), 1] : List ℤ).length = 0) :=
  aggregate_median_spec [(3 : ℤ), 1]

end Bark
